import Mathlib

/-!
# ThaiDictionary: the dictionary loader, the debounce timer and the word list

A shallow embedding of `src/mainwindow.cpp`.  A `QString` is the list of its
characters, an index is a natural number, and a search that Qt answers with
`-1` answers `none`.
-/

namespace ThaiDictionary

/-- A `QString`, as the list of its characters. -/
abbrev QString := List Char

/-! ## The Qt string operations the source calls -/

/-- The character class of `QRegExp("[\\ \\;]")`: a space or a semicolon. -/
def isBoundary (c : Char) : Bool := c == ' ' || c == ';'

/-- Scan for the first character accepted by `p`; `i` is the index of the head of the list. -/
def indexOfAux (p : Char → Bool) : List Char → Nat → Option Nat
  | [], _ => none
  | c :: cs, i => if p c then some i else indexOfAux p cs (i + 1)

/-- Qt's `QString::indexOf(QRegExp("[\\ \\;]"), start)`: the index of the first space or
semicolon at position `start` or later, `none` for Qt's `-1`. -/
def indexOf (s : QString) (start : Nat) : Option Nat :=
  indexOfAux isBoundary (s.drop start) start

/-- Qt's `QString::insert(position, ch)`; Qt first pads the string with spaces when
`position` lies beyond its end. -/
def insert (s : QString) (position : Nat) (ch : Char) : QString :=
  s.take position ++ List.replicate (position - s.length) ' ' ++ ch :: s.drop position

/-- Qt's `QString::replace(position, 1, ch)`: one character at `position` gives way to `ch`. -/
def replace (s : QString) (position : Nat) (ch : Char) : QString :=
  s.take position ++ ch :: s.drop (position + 1)

/-- Qt's `QString::remove(ch)`: every occurrence of `ch` is removed. -/
def remove (s : QString) (ch : Char) : QString :=
  s.filter (fun c => c != ch)

/-- Qt's `QString::split(sep)` with the default `KeepEmptyParts`: the fields between
the separators; never empty, the empty string has the one field `""`. -/
def split (sep : Char) : QString → List QString
  | [] => [[]]
  | c :: cs =>
    if c == sep then [] :: split sep cs
    else
      match split sep cs with
      | [] => [[c]]
      | f :: fs => (c :: f) :: fs

/-- Qt's `QString::contains(w)`: `w` occurs somewhere in `s` as a substring. -/
def contains (s w : QString) : Bool :=
  match s with
  | [] => w.isEmpty
  | c :: cs => w.isPrefixOf (c :: cs) || contains cs w

/-! ## The wrapping block of `modelFromFile` (lines 191-215) -/

/-- The threshold `const int maxLength = 64;`. -/
def maxLength : Nat := 64

/-- The variables the `while` loop of lines 201-213 reads and writes. -/
structure WrapState where
  rowLast : QString
  lastLineBreak : Nat
  remainingLength : Int
  deriving DecidableEq, Repr

/-- One turn of `while(remainingLength > maxLength)`: `none` when the loop is left,
by its condition or by the `break` on `index1 == -1`. -/
def wrapStep (st : WrapState) : Option WrapState :=
  if st.remainingLength > (maxLength : Int) then
    match indexOf st.rowLast (st.lastLineBreak + 1) with
    | none => none
    | some index1 =>
      let rowLast := insert st.rowLast (index1 + 1) '\n'
      some ⟨rowLast, index1 + 1, (rowLast.length : Int) - (index1 : Int)⟩
  else none

/-- The `while` loop, run for at most `fuel` turns. -/
def wrapLoop : Nat → WrapState → WrapState
  | 0, st => st
  | fuel + 1, st =>
    match wrapStep st with
    | none => st
    | some st' => wrapLoop fuel st'

/-- The state in which the `while` loop is entered, after the first break at `index`
(lines 197-200). -/
def firstBreak (rowLast : QString) (index : Nat) : WrapState :=
  let rowLast' :=
    if rowLast[index]? = some ';' then insert rowLast (index + 1) '\n'
    else replace rowLast index '\n'
  ⟨rowLast', index + 1, (rowLast'.length : Int) - (index : Int)⟩

/-- Lines 191-215: what the block leaves in `rowLast`.  The loop gets as many turns
as the string has characters when it is entered, which is more than it can use. -/
def wrapRowLast (rowLast : QString) : QString :=
  if rowLast.length > maxLength then
    match indexOf rowLast maxLength with
    | none => rowLast
    | some index =>
      let st := firstBreak rowLast index
      (wrapLoop st.rowLast.length st).rowLast
  else rowLast

/-- What holds of the loop variables whenever the loop condition is tested:
`lastLineBreak` is one past the boundary found last, and `remainingLength` is the
length of the string minus the index of that boundary. -/
def WrapInv (st : WrapState) : Prop :=
  1 ≤ st.lastLineBreak ∧ st.lastLineBreak ≤ st.rowLast.length ∧
    st.remainingLength = (st.rowLast.length : Int) - ((st.lastLineBreak : Int) - 1)

/-! ## The read loop and the model fill of `modelFromFile` -/

/-- The text up to the next `'\n'` and the text after it: what `QTextStream` scans
for one `readLine`. -/
def scanLine : QString → QString × QString
  | [] => ([], [])
  | c :: cs =>
    if c == '\n' then ([], cs)
    else ((c :: (scanLine cs).1), (scanLine cs).2)

/-- A line handed out by `readLine` has no end-of-line characters: a `'\r'` that ends
the scanned text belongs to the line ending. -/
def stripCR (line : QString) : QString :=
  if line.getLast? = some '\r' then line.dropLast else line

/-- Qt's `QTextStream::readLine` on the unread text: the line, and the text still unread. -/
def readLine (stream : QString) : QString × QString :=
  (stripCR (scanLine stream).1, (scanLine stream).2)

/-- The lines of a text before end-of-line stripping: every `'\n'` ends a line, and
text after the last `'\n'` is a line of its own. -/
def rawLines : QString → List QString
  | [] => []
  | c :: cs =>
    if c == '\n' then [] :: rawLines cs
    else
      match rawLines cs with
      | [] => [[c]]
      | l :: ls => (c :: l) :: ls

/-- The lines of the source text, in source order. -/
def linesRead (text : QString) : List QString :=
  (rawLines text).map stripCR

/-- The body of the read loop (lines 186-217) for one line: the two-field row that
is appended to `lines`.  `first()` and `last()` fail on an empty list; `rowLast` is
a reference into `row`, so the wrapping is done inside `row`. -/
def processLine (line : QString) : Option (List QString) := do
  let row := split '\t' line
  let rowLast ← row.getLast?
  let row := row.dropLast ++ [wrapRowLast rowLast]
  let first ← row.head?
  let last ← row.getLast?
  pure [first, last]

/-- The row stored for a line, the empty list should `processLine` fail. -/
def rowOf (line : QString) : List QString :=
  (processLine line).getD []

/-- The loop `while (!in.atEnd())` of lines 185-220 on the unread text, `lines` being
the rows stored so far; `none` when an access fails or the fuel runs out. -/
def readLoop : Nat → QString → List (List QString) → Option (List (List QString))
  | 0, _, _ => none
  | fuel + 1, stream, lines =>
    if stream.isEmpty then some lines
    else
      match processLine (readLine stream).1 with
      | none => none
      | some row => readLoop fuel (readLine stream).2 (lines ++ [row])

/-- The cells of a `QStandardItemModel`, row by row, each read through
`data().toString()`. -/
abbrev Table := List (List QString)

/-- The column count `const int columnCount = 2;`. -/
def columnCount : Nat := 2

/-- The model `new QStandardItemModel(rows, columns)`: every cell is unset and reads as `""`. -/
def newModel (rows columns : Nat) : Table :=
  List.replicate rows (List.replicate columns [])

/-- The call `m->setData(m->index(i, j), word)`; nothing happens at an index outside the model. -/
def setData (m : Table) (i j : Nat) (word : QString) : Table :=
  match m[i]? with
  | none => m
  | some r => m.set i (r.set j word)

/-- The inner loop of lines 228-233 for row `i`; `lines[i][j]` fails out of range. -/
def fillRow (lines : List (List QString)) (i : Nat) (m : Table) : Option Table :=
  (List.range columnCount).foldlM
    (fun m j => do
      let row ← lines[i]?
      let word ← row[j]?
      pure (setData m i j word)) m

/-- The loops of lines 223-234. -/
def fillModel (lines : List (List QString)) : Option Table :=
  (List.range lines.length).foldlM (fun m i => fillRow lines i m)
    (newModel lines.length columnCount)

/-- The function `MainWindow::modelFromFile` on the text of the file (the empty text when the file
cannot be opened): the model it returns, `none` when the function does not get there. -/
def modelFromFile (text : QString) : Option Table := do
  let lines ← readLoop (text.length + 1) text []
  fillModel lines

/-! ## The debounce timer and `updateView` -/

/-- The part of the window's state that the search slots touch.  `applied` records
every `setFilterStartsWith` call, `visibleRows` is what the proxy model shows since
its last `invalidate`, `layoutRefreshes` counts the resize passes. -/
structure Window where
  sourceModel : Table
  filterStartsWith : QString
  visibleRows : Table
  currentSearchText : QString
  timerActive : Bool
  applied : List QString
  layoutRefreshes : Nat
  deriving DecidableEq, Repr

/-- Modelled from the spec: `SortFilterProxyModel::setFilterStartsWith`, a class of
the repository whose source is not among the files; it makes `q` the query of the
filter state.  The call is recorded in `applied`. -/
def setFilterStartsWith (q : QString) (w : Window) : Window :=
  { w with filterStartsWith := q, applied := w.applied ++ [q] }

/-- Modelled from the spec: `SortFilterProxyModel::invalidate`; the visible rows are
recomputed from the dictionary and the filter state, as the rows the filter accepts,
in the order of the dictionary.  The row test `accepts` of the absent class is a
parameter. -/
def invalidate (accepts : QString → List QString → Bool) (w : Window) : Window :=
  { w with visibleRows := w.sourceModel.filter (accepts w.filterStartsWith) }

/-- The calls `ui->tableView->resizeRowsToContents()` and `resizeColumnsToContents()`
of lines 154-155, counted as one layout refresh. -/
def resizeToContents (w : Window) : Window :=
  { w with layoutRefreshes := w.layoutRefreshes + 1 }

/-- The slot `MainWindow::updateView` (lines 144-157). -/
def updateView (accepts : QString → List QString → Bool) (w : Window) : Window :=
  if w.currentSearchText.isEmpty then w
  else
    let w := setFilterStartsWith w.currentSearchText w
    let w := invalidate accepts w
    if w.currentSearchText.length > 1 then resizeToContents w
    else w

/-- The slot `MainWindow::startUpdateViewTimer` (lines 163-168): `stop()` then `start()`. -/
def startUpdateViewTimer (text : QString) (w : Window) : Window :=
  let w := { w with currentSearchText := text }
  let w := { w with timerActive := false }
  { w with timerActive := true }

/-- The single-shot timer expires: possible only while it runs; it stops and its
`timeout()` signal runs the connected slot `updateView`. -/
def timeout (accepts : QString → List QString → Bool) (w : Window) : Option Window :=
  if w.timerActive then some (updateView accepts { w with timerActive := false })
  else none

/-! ## The word list -/

/-- The slot `MainWindow::onAddButtonClicked` (lines 95-127).  `selected` holds columns 0 and 1
of the first selected row (`none` for an empty selection), `wordlist` the text of
`wordlist.txt` (`none` while the file does not exist), `writable` whether the file
can be opened for appending.  The result is the file afterwards. -/
def onAddButtonClicked (selected : Option (QString × QString))
    (wordlist : Option QString) (writable : Bool) : Option QString :=
  match selected with
  | none => wordlist
  | some (word, translation) =>
    let wordToBeAdded := word
    let translationToBeAdded := remove translation '\n'
    let found :=
      match wordlist with
      | some text => contains text wordToBeAdded
      | none => false
    if found then wordlist
    else if writable then
      some (wordlist.getD [] ++ wordToBeAdded ++ '\t' :: translationToBeAdded ++ ['\n'])
    else wordlist

/-- Some line of the word list has the headword `word` as its first field. -/
def hasHeadword (wordlist : QString) (word : QString) : Bool :=
  (linesRead wordlist).any (fun line => (split '\t' line).head? == some word)

/-! ## Facts about the string operations -/

theorem indexOfAux_some (p : Char → Bool) (l : List Char) (i k : Nat)
    (h : indexOfAux p l i = some k) :
    i ≤ k ∧ (∃ c, l[k - i]? = some c ∧ p c = true) ∧
      ∀ j c, j < k - i → l[j]? = some c → p c = false := by
  induction l generalizing i with
  | nil => simp [indexOfAux] at h
  | cons a l ih =>
    unfold indexOfAux at h
    by_cases ha : p a = true
    · simp only [ha, if_true, Option.some.injEq] at h
      subst h
      refine ⟨le_refl _, ⟨a, by simp, ha⟩, ?_⟩
      intro j c hj
      omega
    · simp only [ha, Bool.false_eq_true, if_false] at h
      obtain ⟨h1, ⟨c, hc, hpc⟩, h3⟩ := ih (i + 1) h
      refine ⟨by omega, ⟨c, ?_, hpc⟩, ?_⟩
      · have e : k - i = (k - (i + 1)) + 1 := by omega
        rw [e, List.getElem?_cons_succ]
        exact hc
      · intro j d hj hd
        cases j with
        | zero =>
          simp only [List.getElem?_cons_zero, Option.some.injEq] at hd
          subst hd
          simpa using ha
        | succ j =>
          rw [List.getElem?_cons_succ] at hd
          exact h3 j d (by omega) hd

theorem indexOfAux_none (p : Char → Bool) (l : List Char) (i : Nat)
    (h : indexOfAux p l i = none) : ∀ c ∈ l, p c = false := by
  induction l generalizing i with
  | nil => simp
  | cons a l ih =>
    unfold indexOfAux at h
    by_cases ha : p a = true
    · simp [ha] at h
    · simp only [ha, Bool.false_eq_true, if_false] at h
      intro c hc
      rcases List.mem_cons.mp hc with rfl | hc
      · simpa using ha
      · exact ih (i + 1) h c hc

theorem indexOfAux_isSome (p : Char → Bool) (l : List Char) (i : Nat) (c : Char)
    (hc : c ∈ l) (hp : p c = true) : ∃ k, indexOfAux p l i = some k := by
  cases h : indexOfAux p l i with
  | some k => exact ⟨k, rfl⟩
  | none =>
    have := indexOfAux_none p l i h c hc
    rw [hp] at this
    cases this

/-- What a successful `indexOf` returns: the first boundary position from `start` on. -/
theorem indexOf_some (s : QString) (start k : Nat) (h : indexOf s start = some k) :
    start ≤ k ∧ k < s.length ∧ (∃ c, s[k]? = some c ∧ isBoundary c = true) ∧
      ∀ j c, start ≤ j → j < k → s[j]? = some c → isBoundary c = false := by
  obtain ⟨h1, ⟨c, hc, hpc⟩, h3⟩ := indexOfAux_some isBoundary (s.drop start) start k h
  rw [List.getElem?_drop] at hc
  have e : start + (k - start) = k := by omega
  rw [e] at hc
  refine ⟨h1, ?_, ⟨c, hc, hpc⟩, ?_⟩
  · by_contra hlt
    rw [List.getElem?_eq_none (by omega)] at hc
    cases hc
  · intro j d hj1 hj2 hd
    apply h3 (j - start) d (by omega)
    rw [List.getElem?_drop]
    have e2 : start + (j - start) = j := by omega
    rw [e2]
    exact hd

/-- A boundary character at position `start` or later makes `indexOf` succeed. -/
theorem indexOf_isSome (s : QString) (start j : Nat) (c : Char) (hj : start ≤ j)
    (hc : s[j]? = some c) (hb : isBoundary c = true) : ∃ k, indexOf s start = some k := by
  apply indexOfAux_isSome isBoundary (s.drop start) start c _ hb
  rw [List.mem_iff_getElem?]
  refine ⟨j - start, ?_⟩
  rw [List.getElem?_drop]
  have e : start + (j - start) = j := by omega
  rw [e]
  exact hc

theorem length_insert (s : QString) (k : Nat) (ch : Char) (h : k ≤ s.length) :
    (insert s k ch).length = s.length + 1 := by
  simp [insert, List.length_take, List.length_drop]
  omega

theorem length_replace (s : QString) (k : Nat) (ch : Char) (h : k < s.length) :
    (replace s k ch).length = s.length := by
  simp [replace, List.length_take, List.length_drop]
  omega

theorem take_insert (s : QString) (k n : Nat) (ch : Char) (hk : k ≤ s.length) (hn : n ≤ k) :
    (insert s k ch).take n = s.take n := by
  have e : k - s.length = 0 := by omega
  simp only [insert, e, List.replicate_zero, List.append_nil]
  rw [List.take_append_of_le_length (by simp [List.length_take]; omega)]
  rw [List.take_take]
  congr 1
  omega

theorem remove_insert (s : QString) (k : Nat) (hk : k ≤ s.length) :
    remove (insert s k '\n') '\n' = remove s '\n' := by
  have e : k - s.length = 0 := by omega
  simp only [insert, e, List.replicate_zero, List.append_nil, remove]
  rw [List.filter_append, List.filter_cons]
  simp only [bne_self_eq_false, Bool.false_eq_true, if_false]
  rw [← List.filter_append, List.take_append_drop]

theorem remove_of_not_mem (s : QString) (ch : Char) (h : ch ∉ s) : remove s ch = s := by
  unfold remove
  rw [List.filter_eq_self]
  intro a ha
  simp only [bne_iff_ne, ne_eq]
  rintro rfl
  exact h ha

/-! ## The wrapping loop: invariant, progress and exit -/

theorem wrapStep_some (st st' : WrapState) (h : wrapStep st = some st') :
    st.remainingLength > (maxLength : Int) ∧
      ∃ index1, indexOf st.rowLast (st.lastLineBreak + 1) = some index1 ∧
        st' = ⟨insert st.rowLast (index1 + 1) '\n', index1 + 1,
          ((insert st.rowLast (index1 + 1) '\n').length : Int) - (index1 : Int)⟩ := by
  unfold wrapStep at h
  by_cases hr : st.remainingLength > (maxLength : Int)
  · rw [if_pos hr] at h
    refine ⟨hr, ?_⟩
    cases hi : indexOf st.rowLast (st.lastLineBreak + 1) with
    | none => rw [hi] at h; cases h
    | some index1 =>
      rw [hi] at h
      simp only [Option.some.injEq] at h
      exact ⟨index1, rfl, h.symm⟩
  · rw [if_neg hr] at h
    cases h

theorem wrapStep_none (st : WrapState) (h : wrapStep st = none) :
    st.remainingLength ≤ (maxLength : Int) ∨
      indexOf st.rowLast (st.lastLineBreak + 1) = none := by
  unfold wrapStep at h
  by_cases hr : st.remainingLength > (maxLength : Int)
  · rw [if_pos hr] at h
    right
    cases hi : indexOf st.rowLast (st.lastLineBreak + 1) with
    | none => rfl
    | some index1 => rw [hi] at h; cases h
  · left
    omega

theorem firstBreak_length (t : QString) (index : Nat) (h : index < t.length) :
    (firstBreak t index).rowLast.length =
      if t[index]? = some ';' then t.length + 1 else t.length := by
  unfold firstBreak
  by_cases hc : t[index]? = some ';'
  · simp only [hc, if_true]
    exact length_insert t (index + 1) '\n' (by omega)
  · simp only [hc, if_false]
    exact length_replace t index '\n' h

theorem firstBreak_inv (t : QString) (index : Nat) (h : indexOf t maxLength = some index) :
    WrapInv (firstBreak t index) := by
  obtain ⟨_, hlt, _, _⟩ := indexOf_some t maxLength index h
  have hl := firstBreak_length t index hlt
  have h2 : (firstBreak t index).lastLineBreak = index + 1 := rfl
  have h3 : (firstBreak t index).remainingLength =
      ((firstBreak t index).rowLast.length : Int) - (index : Int) := rfl
  refine ⟨by omega, ?_, ?_⟩
  · rw [h2, hl]
    split <;> omega
  · rw [h3, h2]
    push_cast
    omega

theorem wrapStep_inv (st st' : WrapState) (hinv : WrapInv st) (h : wrapStep st = some st') :
    WrapInv st' ∧ st'.remainingLength < st.remainingLength ∧
      st.lastLineBreak + 2 ≤ st'.lastLineBreak ∧ st'.lastLineBreak ≤ st.rowLast.length ∧
      st'.rowLast = insert st.rowLast st'.lastLineBreak '\n' ∧
      st'.rowLast.length = st.rowLast.length + 1 := by
  obtain ⟨_, index1, hi, rfl⟩ := wrapStep_some st st' h
  obtain ⟨h1, h2, h3⟩ := hinv
  obtain ⟨hge, hlt, _, _⟩ := indexOf_some st.rowLast (st.lastLineBreak + 1) index1 hi
  have hl := length_insert st.rowLast (index1 + 1) '\n' (by omega)
  refine ⟨⟨?_, ?_, ?_⟩, ?_, ?_, ?_, rfl, hl⟩
  · show 1 ≤ index1 + 1
    omega
  · show index1 + 1 ≤ (insert st.rowLast (index1 + 1) '\n').length
    omega
  · show ((insert st.rowLast (index1 + 1) '\n').length : Int) - (index1 : Int) =
      ((insert st.rowLast (index1 + 1) '\n').length : Int) - (((index1 + 1 : Nat) : Int) - 1)
    push_cast
    omega
  · show ((insert st.rowLast (index1 + 1) '\n').length : Int) - (index1 : Int) <
      st.remainingLength
    rw [h3, hl]
    push_cast
    omega
  · show st.lastLineBreak + 2 ≤ index1 + 1
    omega
  · show index1 + 1 ≤ st.rowLast.length
    omega

/-- A property kept by every turn of the loop holds when the loop is left. -/
theorem wrapLoop_induct (P : WrapState → Prop)
    (hstep : ∀ st st', P st → wrapStep st = some st' → P st')
    (n : Nat) (st : WrapState) (h : P st) : P (wrapLoop n st) := by
  induction n generalizing st with
  | zero => exact h
  | succ n ih =>
    unfold wrapLoop
    cases hs : wrapStep st with
    | none => exact h
    | some st' => exact ih st' (hstep st st' h hs)

theorem wrapLoop_inv (n : Nat) (st : WrapState) (h : WrapInv st) : WrapInv (wrapLoop n st) :=
  wrapLoop_induct WrapInv (fun st st' hi hs => (wrapStep_inv st st' hi hs).1) n st h

theorem wrapLoop_exit (n : Nat) (st : WrapState) (hinv : WrapInv st)
    (hfuel : st.remainingLength ≤ (n : Int)) : wrapStep (wrapLoop n st) = none := by
  induction n generalizing st with
  | zero =>
    unfold wrapLoop wrapStep
    rw [if_neg]
    simp only [maxLength] at *
    omega
  | succ n ih =>
    unfold wrapLoop
    cases hs : wrapStep st with
    | none => exact hs
    | some st' =>
      obtain ⟨hinv', hlt, _⟩ := wrapStep_inv st st' hinv hs
      apply ih st' hinv'
      push_cast at hfuel
      omega

theorem wrapLoop_stable (n m : Nat) (st : WrapState) (h : wrapStep (wrapLoop n st) = none)
    (hnm : n ≤ m) : wrapLoop m st = wrapLoop n st := by
  induction n generalizing st m with
  | zero =>
    simp only [wrapLoop] at h
    cases m with
    | zero => rfl
    | succ m => simp only [wrapLoop, h]
  | succ n ih =>
    cases m with
    | zero => omega
    | succ m =>
      unfold wrapLoop
      unfold wrapLoop at h
      cases hs : wrapStep st with
      | none => rfl
      | some st' =>
        rw [hs] at h
        exact ih m st' h (by omega)

theorem firstBreak_fuel (t : QString) (index : Nat) (h : indexOf t maxLength = some index) :
    (firstBreak t index).remainingLength ≤ ((firstBreak t index).rowLast.length : Int) := by
  obtain ⟨h1, _, h3⟩ := firstBreak_inv t index h
  rw [h3]
  omega

theorem indexOf_short (t : QString) (h : t.length ≤ maxLength) : indexOf t maxLength = none := by
  unfold indexOf
  rw [List.drop_of_length_le h]
  rfl

theorem firstBreak_getElem?_lt (t : QString) (i k : Nat) (hi : i < t.length)
    (hk : k < (if t[i]? = some ';' then i + 1 else i)) :
    (firstBreak t i).rowLast[k]? = t[k]? := by
  unfold firstBreak
  by_cases hc : t[i]? = some ';'
  · simp only [hc, if_true] at hk ⊢
    have e : i + 1 - t.length = 0 := by omega
    simp only [insert, e, List.replicate_zero, List.append_nil]
    rw [List.getElem?_append_left (by simp [List.length_take]; omega)]
    exact List.getElem?_take_of_lt hk
  · simp only [hc, if_false] at hk ⊢
    simp only [replace]
    rw [List.getElem?_append_left (by simp [List.length_take]; omega)]
    exact List.getElem?_take_of_lt hk

theorem firstBreak_getElem?_eq (t : QString) (i : Nat) (hi : i < t.length) :
    (firstBreak t i).rowLast[if t[i]? = some ';' then i + 1 else i]? = some '\n' := by
  unfold firstBreak
  by_cases hc : t[i]? = some ';'
  · simp only [hc, if_true]
    have e : i + 1 - t.length = 0 := by omega
    simp only [insert, e, List.replicate_zero, List.append_nil]
    rw [List.getElem?_append_right (by simp [List.length_take])]
    simp [List.length_take]
    have e2 : min (i + 1) t.length = i + 1 := by omega
    simp [e2]
  · simp only [hc, if_false]
    simp only [replace]
    rw [List.getElem?_append_right (by simp [List.length_take])]
    simp [List.length_take]
    have e2 : min i t.length = i := by omega
    simp [e2]

/-- The loop leaves the string untouched up to and including position
`lastLineBreak` of its entry state. -/
theorem wrapLoop_take (n : Nat) (st : WrapState) (hinv : WrapInv st) :
    (wrapLoop n st).rowLast.take (st.lastLineBreak + 1) =
      st.rowLast.take (st.lastLineBreak + 1) := by
  have h := wrapLoop_induct
    (fun s => WrapInv s ∧ st.lastLineBreak ≤ s.lastLineBreak ∧
      s.rowLast.take (st.lastLineBreak + 1) = st.rowLast.take (st.lastLineBreak + 1))
    (by
      intro s s' ⟨hi, hle, htake⟩ hs
      obtain ⟨hi', _, h2, h3, h4, _⟩ := wrapStep_inv s s' hi hs
      refine ⟨hi', by omega, ?_⟩
      rw [h4, take_insert s.rowLast s'.lastLineBreak _ '\n' h3 (by omega)]
      exact htake)
    n st ⟨hinv, le_refl _, rfl⟩
  exact h.2.2

/-- Removing the line breaks after the loop gives what removing them before it gives. -/
theorem wrapLoop_remove (n : Nat) (st : WrapState) (hinv : WrapInv st) :
    remove (wrapLoop n st).rowLast '\n' = remove st.rowLast '\n' := by
  have h := wrapLoop_induct
    (fun s => WrapInv s ∧ remove s.rowLast '\n' = remove st.rowLast '\n')
    (by
      intro s s' ⟨hi, hrem⟩ hs
      obtain ⟨hi', _, _, h3, h4, _⟩ := wrapStep_inv s s' hi hs
      refine ⟨hi', ?_⟩
      rw [h4, remove_insert s.rowLast s'.lastLineBreak h3]
      exact hrem)
    n st ⟨hinv, rfl⟩
  exact h.2

theorem wrapRowLast_of_indexOf (t : QString) (i : Nat) (h : indexOf t maxLength = some i) :
    wrapRowLast t =
      (wrapLoop (firstBreak t i).rowLast.length (firstBreak t i)).rowLast := by
  have hlen : t.length > maxLength := by
    by_contra hle
    rw [indexOf_short t (by omega)] at h
    cases h
  unfold wrapRowLast
  rw [if_pos hlen, h]

theorem wrapRowLast_short (t : QString) (h : t.length ≤ maxLength) : wrapRowLast t = t := by
  unfold wrapRowLast
  rw [if_neg (by omega)]

/-- The first line break of a wrapped translation that had none: it is where the
first boundary at index 64 or later was, or right after it when that is a semicolon. -/
theorem wrapRowLast_first_break (t : QString) (hnl : '\n' ∉ t) (i : Nat)
    (h : indexOf t maxLength = some i) :
    (wrapRowLast t)[if t[i]? = some ';' then i + 1 else i]? = some '\n' ∧
      ∀ k, k < (if t[i]? = some ';' then i + 1 else i) → (wrapRowLast t)[k]? ≠ some '\n' := by
  obtain ⟨_, hlt, _, _⟩ := indexOf_some t maxLength i h
  have hinv := firstBreak_inv t i h
  have htake := wrapLoop_take (firstBreak t i).rowLast.length (firstBreak t i) hinv
  have hL : (firstBreak t i).lastLineBreak = i + 1 := rfl
  rw [hL] at htake
  rw [wrapRowLast_of_indexOf t i h]
  have key : ∀ k, k < i + 2 →
      (wrapLoop (firstBreak t i).rowLast.length (firstBreak t i)).rowLast[k]? =
        (firstBreak t i).rowLast[k]? := by
    intro k hk
    rw [← List.getElem?_take_of_lt hk, htake, List.getElem?_take_of_lt hk]
  constructor
  · rw [key _ (by split <;> omega)]
    exact firstBreak_getElem?_eq t i hlt
  · intro k hk
    rw [key k (by split at hk <;> omega), firstBreak_getElem?_lt t i k hlt hk]
    intro hcon
    exact hnl (List.getElem?_mem hcon)

theorem remove_firstBreak (t : QString) (hnl : '\n' ∉ t) (i : Nat) (hi : i < t.length) :
    remove (firstBreak t i).rowLast '\n' =
      if t[i]? = some ';' then t else t.eraseIdx i := by
  unfold firstBreak
  by_cases hc : t[i]? = some ';'
  · simp only [hc, if_true]
    rw [remove_insert t (i + 1) (by omega)]
    exact remove_of_not_mem t '\n' hnl
  · simp only [hc, if_false]
    have h1 : remove (t.take i) '\n' = t.take i :=
      remove_of_not_mem _ _ (fun hm => hnl (List.mem_of_mem_take hm))
    have h2 : remove (t.drop (i + 1)) '\n' = t.drop (i + 1) :=
      remove_of_not_mem _ _ (fun hm => hnl (List.mem_of_mem_drop hm))
    have h3 : remove (replace t i '\n') '\n' =
        remove (t.take i) '\n' ++ remove (t.drop (i + 1)) '\n' := by
      simp only [replace, remove]
      rw [List.filter_append, List.filter_cons]
      simp
    rw [h3, h1, h2, List.eraseIdx_eq_take_drop_succ]

/-! ## Facts about the loader -/

theorem split_ne_nil (sep : Char) (s : QString) : split sep s ≠ [] := by
  cases s with
  | nil => simp [split]
  | cons c cs =>
    unfold split
    split
    · simp
    · split <;> simp

theorem split_of_not_mem (sep : Char) (a : QString) (h : sep ∉ a) : split sep a = [a] := by
  induction a with
  | nil => rfl
  | cons c cs ih =>
    have hc : (c == sep) = false := by
      simp only [beq_eq_false_iff_ne, ne_eq]
      rintro rfl
      exact h (List.mem_cons_self _ _)
    have hcs : sep ∉ cs := fun hm => h (List.mem_cons_of_mem _ hm)
    simp [split, hc, ih hcs]

theorem split_append (sep : Char) (a rest : QString) (h : sep ∉ a) :
    split sep (a ++ sep :: rest) = a :: split sep rest := by
  induction a with
  | nil => simp [split]
  | cons c cs ih =>
    have hc : (c == sep) = false := by
      simp only [beq_eq_false_iff_ne, ne_eq]
      rintro rfl
      exact h (List.mem_cons_self _ _)
    have hcs : sep ∉ cs := fun hm => h (List.mem_cons_of_mem _ hm)
    simp [split, hc, ih hcs]

theorem split_mem_sub (sep : Char) (s f : QString) (hf : f ∈ split sep s) :
    ∀ c ∈ f, c ∈ s := by
  induction s generalizing f with
  | nil =>
    simp only [split, List.mem_singleton] at hf
    subst hf
    simp
  | cons a cs ih =>
    unfold split at hf
    by_cases ha : (a == sep) = true
    · rw [if_pos ha] at hf
      rcases List.mem_cons.mp hf with rfl | hf
      · simp
      · intro c hc
        exact List.mem_cons_of_mem _ (ih f hf c hc)
    · rw [if_neg ha] at hf
      cases hsp : split sep cs with
      | nil => exact absurd hsp (split_ne_nil sep cs)
      | cons g gs =>
        rw [hsp] at hf ih
        simp only at hf
        rcases List.mem_cons.mp hf with rfl | hf
        · intro c hc
          rcases List.mem_cons.mp hc with rfl | hc
          · exact List.mem_cons_self _ _
          · exact List.mem_cons_of_mem _ (ih g (List.mem_cons_self _ _) c hc)
        · intro c hc
          exact List.mem_cons_of_mem _ (ih f (List.mem_cons_of_mem _ hf) c hc)

theorem rawLines_no_newline (s l : QString) (hl : l ∈ rawLines s) : '\n' ∉ l := by
  induction s generalizing l with
  | nil => simp [rawLines] at hl
  | cons a cs ih =>
    unfold rawLines at hl
    by_cases ha : (a == '\n') = true
    · rw [if_pos ha] at hl
      rcases List.mem_cons.mp hl with rfl | hl
      · simp
      · exact ih l hl
    · rw [if_neg ha] at hl
      have hane : a ≠ '\n' := by simpa using ha
      cases hr : rawLines cs with
      | nil =>
        rw [hr] at hl
        simp only [List.mem_singleton] at hl
        subst hl
        simp only [List.mem_singleton]
        exact fun e => hane e.symm
      | cons g gs =>
        rw [hr] at hl ih
        simp only at hl
        rcases List.mem_cons.mp hl with rfl | hl
        · intro hm
          rcases List.mem_cons.mp hm with e | hm
          · exact hane e.symm
          · exact ih g (List.mem_cons_self _ _) hm
        · exact ih l (List.mem_cons_of_mem _ hl)

theorem stripCR_sub (l : QString) (c : Char) (hc : c ∈ stripCR l) : c ∈ l := by
  unfold stripCR at hc
  split at hc
  · exact List.mem_of_mem_dropLast hc
  · exact hc

/-- A field of a line of the source has no line break in it. -/
theorem field_no_newline (text line t : QString) (hline : line ∈ linesRead text)
    (ht : t ∈ split '\t' line) : '\n' ∉ t := by
  intro hm
  have h1 : '\n' ∈ line := split_mem_sub '\t' line t ht _ hm
  obtain ⟨raw, hraw, rfl⟩ := List.mem_map.mp hline
  exact rawLines_no_newline text raw hraw (stripCR_sub raw _ h1)

theorem scanLine_length (s : QString) (h : s ≠ []) : (scanLine s).2.length < s.length := by
  induction s with
  | nil => exact absurd rfl h
  | cons a cs ih =>
    unfold scanLine
    by_cases ha : (a == '\n') = true
    · simp [ha]
    · simp only [ha, Bool.false_eq_true, if_false, List.length_cons]
      cases cs with
      | nil => simp [scanLine]
      | cons b bs =>
        have := ih (by simp)
        simp only [List.length_cons] at this ⊢
        omega

theorem rawLines_cons (a : Char) (cs : QString) :
    rawLines (a :: cs) =
      if a == '\n' then [] :: rawLines cs
      else
        match rawLines cs with
        | [] => [[a]]
        | l :: ls => (a :: l) :: ls := by
  rw [rawLines]

theorem scanLine_cons (a : Char) (cs : QString) :
    scanLine (a :: cs) =
      if a == '\n' then ([], cs) else ((a :: (scanLine cs).1), (scanLine cs).2) := by
  rw [scanLine]

theorem rawLines_scan (s : QString) (h : s ≠ []) :
    rawLines s = (scanLine s).1 :: rawLines (scanLine s).2 := by
  induction s with
  | nil => exact absurd rfl h
  | cons a cs ih =>
    rw [rawLines_cons, scanLine_cons]
    by_cases ha : (a == '\n') = true
    · simp [ha]
    · simp only [ha, Bool.false_eq_true, if_false]
      cases cs with
      | nil => simp [rawLines, scanLine]
      | cons b bs =>
        rw [ih (by simp)]

theorem linesRead_readLine (s : QString) (h : s ≠ []) :
    linesRead s = (readLine s).1 :: linesRead (readLine s).2 := by
  unfold linesRead readLine
  rw [rawLines_scan s h]
  rfl

/-- The loop body stores a two-field row for every line: the last field wrapped,
and before it the first field, which for a line without a tab is the same string. -/
theorem processLine_eq (line : QString) :
    ∃ init last, split '\t' line = init ++ [last] ∧
      processLine line = some [(init ++ [wrapRowLast last]).head?.getD [], wrapRowLast last] := by
  obtain ⟨init, last, hsp⟩ : ∃ init last, split '\t' line = init ++ [last] := by
    have := List.getLast?_eq_some_iff.mp
      (List.getLast?_eq_getLast _ (split_ne_nil '\t' line))
    obtain ⟨ys, hys⟩ := this
    exact ⟨ys, _, hys⟩
  refine ⟨init, last, hsp, ?_⟩
  have h1 : (init ++ [last]).getLast? = some last := by simp
  have h2 : (init ++ [last]).dropLast = init := by simp
  have h3 : (init ++ [wrapRowLast last]).getLast? = some (wrapRowLast last) := by simp
  unfold processLine
  rw [hsp]
  simp only [h1, h2, h3, Option.bind_eq_bind, Option.some_bind, Option.pure_def]
  cases hh : (init ++ [wrapRowLast last]).head? with
  | none => simp at hh
  | some a => simp

theorem processLine_rowOf (line : QString) :
    processLine line = some (rowOf line) ∧ (rowOf line).length = 2 := by
  obtain ⟨init, last, _, h⟩ := processLine_eq line
  unfold rowOf
  rw [h]
  simp

theorem readLoop_eq (fuel : Nat) (stream : QString) (lines : List (List QString))
    (h : stream.length < fuel) :
    readLoop fuel stream lines = some (lines ++ (linesRead stream).map rowOf) := by
  induction fuel generalizing stream lines with
  | zero => omega
  | succ fuel ih =>
    unfold readLoop
    cases stream with
    | nil => simp [linesRead, rawLines]
    | cons c cs =>
      have hne : (c :: cs) ≠ [] := by simp
      have hlen := scanLine_length (c :: cs) hne
      have hrest : (readLine (c :: cs)).2 = (scanLine (c :: cs)).2 := rfl
      simp only [List.isEmpty_cons, Bool.false_eq_true, if_false]
      rw [(processLine_rowOf _).1]
      simp only
      rw [ih _ _ (by rw [hrest]; simp only [List.length_cons] at h hlen ⊢; omega)]
      rw [linesRead_readLine (c :: cs) hne]
      simp

theorem fillRow_eq (lines : List (List QString)) (i : Nat) (m : Table) (a b x y : QString)
    (hl : lines[i]? = some [a, b]) (hm : m[i]? = some [x, y]) :
    fillRow lines i m = some (m.set i [a, b]) := by
  have hi : i < m.length := by
    by_contra hge
    rw [List.getElem?_eq_none (by omega)] at hm
    cases hm
  have hr : List.range columnCount = [0, 1] := by decide
  unfold fillRow
  rw [hr]
  simp only [List.foldlM_cons, List.foldlM_nil, hl, Option.bind_eq_bind, Option.some_bind,
    List.getElem?_cons_zero, List.getElem?_cons_succ, Option.pure_def]
  simp only [setData, hm, List.getElem?_set_self hi, List.set_cons_zero, List.set_cons_succ,
    List.set_set]

theorem fillModel_firstRows (lines : List (List QString)) (h2 : ∀ r ∈ lines, r.length = 2)
    (n : Nat) (hn : n ≤ lines.length) :
    (List.range n).foldlM (fun m i => fillRow lines i m) (newModel lines.length columnCount) =
      some (lines.take n ++ List.replicate (lines.length - n) [[], []]) := by
  induction n with
  | zero => simp [newModel, columnCount]
  | succ n ih =>
    rw [List.range_succ, List.foldlM_append, ih (by omega)]
    simp only [Option.bind_eq_bind, Option.some_bind, List.foldlM_cons, List.foldlM_nil]
    have hlt : n < lines.length := by omega
    have hrow : lines[n].length = 2 := h2 _ (List.getElem_mem _)
    obtain ⟨a, b, hab⟩ : ∃ a b, lines[n] = [a, b] := by
      match hq : lines[n], hrow with
      | [a, b], _ => exact ⟨a, b, rfl⟩
    have hl : lines[n]? = some [a, b] := by
      rw [List.getElem?_eq_getElem hlt, hab]
    have hrep : List.replicate (lines.length - n) ([[], []] : List QString) =
        [[], []] :: List.replicate (lines.length - (n + 1)) [[], []] := by
      have e : lines.length - n = (lines.length - (n + 1)) + 1 := by omega
      rw [e, List.replicate_succ]
    have htl : (lines.take n).length = n := by
      rw [List.length_take]
      omega
    have hm : (lines.take n ++ List.replicate (lines.length - n) [[], []])[n]? =
        some [[], []] := by
      rw [List.getElem?_append_right (by omega), htl, hrep]
      simp
    rw [fillRow_eq lines n _ a b [] [] hl hm]
    simp only [Option.some_bind, Option.pure_def, Option.some.injEq]
    rw [List.set_append_right _ _ (by omega), htl, hrep]
    simp only [Nat.sub_self, List.set_cons_zero]
    rw [List.take_succ, hl]
    simp

theorem fillModel_eq (lines : List (List QString)) (h2 : ∀ r ∈ lines, r.length = 2) :
    fillModel lines = some lines := by
  unfold fillModel
  rw [fillModel_firstRows lines h2 lines.length (le_refl _)]
  simp

/-- The model returned: one stored row per line of the source, in source order. -/
theorem modelFromFile_eq (text : QString) :
    modelFromFile text = some ((linesRead text).map rowOf) := by
  unfold modelFromFile
  rw [readLoop_eq (text.length + 1) text [] (by omega)]
  simp only [List.nil_append, Option.bind_eq_bind, Option.some_bind]
  apply fillModel_eq
  intro r hr
  obtain ⟨line, _, rfl⟩ := List.mem_map.mp hr
  exact (processLine_rowOf line).2

theorem foldl_startUpdateViewTimer (qs : List QString) (w : Window) :
    (qs.foldl (fun w t => startUpdateViewTimer t w) w).applied = w.applied ∧
      (qs.foldl (fun w t => startUpdateViewTimer t w) w).filterStartsWith = w.filterStartsWith ∧
      (qs.foldl (fun w t => startUpdateViewTimer t w) w).visibleRows = w.visibleRows ∧
      (qs.foldl (fun w t => startUpdateViewTimer t w) w).sourceModel = w.sourceModel ∧
      (qs.foldl (fun w t => startUpdateViewTimer t w) w).layoutRefreshes = w.layoutRefreshes := by
  induction qs generalizing w with
  | nil => simp
  | cons q qs ih =>
    simp only [List.foldl_cons]
    obtain ⟨h1, h2, h3, h4, h5⟩ := ih (startUpdateViewTimer q w)
    exact ⟨h1, h2, h3, h4, h5⟩

theorem updateView_nonempty (accepts : QString → List QString → Bool) (w : Window)
    (h : w.currentSearchText ≠ []) :
    (updateView accepts w).applied = w.applied ++ [w.currentSearchText] ∧
      (updateView accepts w).filterStartsWith = w.currentSearchText ∧
      (updateView accepts w).visibleRows = w.sourceModel.filter (accepts w.currentSearchText) ∧
      (updateView accepts w).timerActive = w.timerActive := by
  have he : w.currentSearchText.isEmpty = false := by
    cases hq : w.currentSearchText with
    | nil => exact absurd hq h
    | cons c cs => rfl
  unfold updateView
  simp only [he, Bool.false_eq_true, if_false]
  split_ifs <;> exact ⟨rfl, rfl, rfl, rfl⟩

theorem timeout_startUpdateViewTimer (accepts : QString → List QString → Bool) (w : Window)
    (q : QString) (hq : q ≠ []) :
    ∃ w', timeout accepts (startUpdateViewTimer q w) = some w' ∧
      w'.applied = w.applied ++ [q] ∧
      w'.filterStartsWith = q ∧
      w'.visibleRows = w.sourceModel.filter (accepts q) ∧
      timeout accepts w' = none := by
  obtain ⟨h1, h2, h3, h4⟩ := updateView_nonempty accepts
    { startUpdateViewTimer q w with timerActive := false } hq
  refine ⟨updateView accepts { startUpdateViewTimer q w with timerActive := false },
    rfl, h1, h2, h3, ?_⟩
  unfold timeout
  rw [h4]
  rfl

/-! ## The claims -/

set_option maxRecDepth 100000

/-- C1: for every source text `modelFromFile` returns a model with one row per line
read, row `k` being what the loop body stores for line `k`; a line of three
tab-separated fields `a`, `b`, `c` gives the row `(a, c wrapped)`, the middle field
being dropped, and `(a, c)` itself when `c` has at most 64 characters; the line
`cat<TAB>/kaet/<TAB>small domesticated feline` gives `(cat, small domesticated feline)`. -/
theorem modelFromFile_rows (text : QString) :
    (∃ table, modelFromFile text = some table ∧
      table.length = (linesRead text).length ∧
      (∀ (k : Nat) (line : QString), (linesRead text)[k]? = some line →
        ∃ row, table[k]? = some row ∧ processLine line = some row) ∧
      (∀ (k : Nat) (a b c : QString),
        (linesRead text)[k]? = some (a ++ '\t' :: (b ++ '\t' :: c)) →
        '\t' ∉ a → '\t' ∉ b → '\t' ∉ c →
        table[k]? = some [a, wrapRowLast c] ∧
          (c.length ≤ maxLength → table[k]? = some [a, c]))) ∧
    modelFromFile "cat\t/kaet/\tsmall domesticated feline".toList =
      some ["cat".toList :: ["small domesticated feline".toList]] := by
  refine ⟨⟨(linesRead text).map rowOf, modelFromFile_eq text, by simp, ?_, ?_⟩, by decide⟩
  · intro k line hk
    refine ⟨rowOf line, ?_, (processLine_rowOf line).1⟩
    rw [List.getElem?_map, hk]
    rfl
  · intro k a b c hk ha hb hc
    have hsp : split '\t' (a ++ '\t' :: (b ++ '\t' :: c)) = [a, b] ++ [c] := by
      rw [split_append '\t' a _ ha, split_append '\t' b _ hb, split_of_not_mem '\t' c hc]
      rfl
    obtain ⟨init, last, hs, hp⟩ := processLine_eq (a ++ '\t' :: (b ++ '\t' :: c))
    rw [hsp] at hs
    obtain ⟨rfl, hlast⟩ := List.append_inj' hs rfl
    simp only [List.cons.injEq, and_true] at hlast
    subst hlast
    have hrow : rowOf (a ++ '\t' :: (b ++ '\t' :: c)) = [a, wrapRowLast c] := by
      unfold rowOf
      rw [hp]
      rfl
    have hget : ((linesRead text).map rowOf)[k]? = some [a, wrapRowLast c] := by
      rw [List.getElem?_map, hk]
      simp only [Option.map_some']
      rw [hrow]
    refine ⟨hget, ?_⟩
    intro hlen
    rw [hget, wrapRowLast_short c hlen]

theorem modelFromFile_rows_witness :
    modelFromFile ("dog\t/dog/\tbarks\nsun\t/san/\tthe star at the centre".toList) =
      some ["dog".toList :: ["barks".toList],
        "sun".toList :: ["the star at the centre".toList]] := by
  obtain ⟨table, h1, h2, _, h4⟩ :=
    (modelFromFile_rows ("dog\t/dog/\tbarks\nsun\t/san/\tthe star at the centre".toList)).1
  have r0 := (h4 0 "dog".toList "/dog/".toList "barks".toList (by decide) (by decide)
    (by decide) (by decide)).2 (by decide)
  have r1 := (h4 1 "sun".toList "/san/".toList "the star at the centre".toList (by decide)
    (by decide) (by decide) (by decide)).2 (by decide)
  rw [h1]
  have hl : table.length = 2 := by rw [h2]; decide
  match table, hl, r0, r1 with
  | [x, y], _, r0, r1 =>
    simp only [List.getElem?_cons_zero, List.getElem?_cons_succ, Option.some.injEq] at r0 r1
    rw [r0, r1]

/-- C2, as the code has it: for every translation without a line break, removing the
line breaks from the wrapped translation gives the original text when no break was
made or the first break fell on a semicolon, and the original text without the space
at the first break position when it fell on a space. -/
theorem remove_breaks_wrapRowLast (t : QString) (hnl : '\n' ∉ t) :
    remove (wrapRowLast t) '\n' =
      match indexOf t maxLength with
      | none => t
      | some i => if t[i]? = some ';' then t else t.eraseIdx i := by
  cases h : indexOf t maxLength with
  | none =>
    have hw : wrapRowLast t = t := by
      unfold wrapRowLast
      rw [h]
      simp
    rw [hw]
    exact remove_of_not_mem t '\n' hnl
  | some i =>
    obtain ⟨_, hlt, _, _⟩ := indexOf_some t maxLength i h
    rw [wrapRowLast_of_indexOf t i h, wrapLoop_remove _ _ (firstBreak_inv t i h)]
    exact remove_firstBreak t hnl i hlt

theorem remove_breaks_wrapRowLast_witness :
    remove (wrapRowLast ("a written or printed work of pages bound along one side, kept in a library and lent out to the readers of the town for a week".toList)) '\n' =
      "a written or printed work of pages bound along one side, kept ina library and lent out to the readers of the town for a week".toList :=
  remove_breaks_wrapRowLast _ (by decide)

/-- C2 as stated fails on the 103-character example of the specification: the space
at index 65 is replaced by the line break, and removing the break does not bring
it back. -/
theorem remove_breaks_counterexample :
    '\n' ∉ "a b c d e f g h i j k l m n o p q r s t u v w x y z a b c d e f g h i j k l m n o p q r s t u v w x y z".toList ∧
    remove (wrapRowLast ("a b c d e f g h i j k l m n o p q r s t u v w x y z a b c d e f g h i j k l m n o p q r s t u v w x y z".toList)) '\n' =
      "a b c d e f g h i j k l m n o p q r s t u v w x y z a b c d e f gh i j k l m n o p q r s t u v w x y z".toList ∧
    remove (wrapRowLast ("a b c d e f g h i j k l m n o p q r s t u v w x y z a b c d e f g h i j k l m n o p q r s t u v w x y z".toList)) '\n' ≠
      "a b c d e f g h i j k l m n o p q r s t u v w x y z a b c d e f g h i j k l m n o p q r s t u v w x y z".toList := by
  decide

/-- C3: a translation `t`, the last field of a line of the source, that has a space or
semicolon at some index `j ≥ 64` (so it is longer than 64 characters): the wrapped
translation contains a line break, none before index 64, and its first line break
is at the index `i` of the first space or semicolon from index 64 on when that
character is a space, at `i + 1` when it is a semicolon. -/
theorem first_break_position (text line t : QString) (hline : line ∈ linesRead text)
    (ht : (split '\t' line).getLast? = some t) (j : Nat) (c : Char)
    (hj : maxLength ≤ j) (hc : t[j]? = some c) (hb : isBoundary c = true) :
    maxLength < t.length ∧ '\n' ∈ wrapRowLast t ∧
      (∀ k, k < maxLength → (wrapRowLast t)[k]? ≠ some '\n') ∧
      ∃ i b, maxLength ≤ i ∧ i ≤ j ∧ t[i]? = some b ∧ isBoundary b = true ∧
        (∀ k d, maxLength ≤ k → k < i → t[k]? = some d → isBoundary d = false) ∧
        (wrapRowLast t)[if b = ';' then i + 1 else i]? = some '\n' ∧
        ∀ k, k < (if b = ';' then i + 1 else i) → (wrapRowLast t)[k]? ≠ some '\n' := by
  have hnl : '\n' ∉ t := field_no_newline text line t hline (List.mem_of_getLast?_eq_some ht)
  obtain ⟨i, hi⟩ := indexOf_isSome t maxLength j c hj hc hb
  obtain ⟨h1, h2, ⟨b, hb1, hb2⟩, h4⟩ := indexOf_some t maxLength i hi
  obtain ⟨hat, hbefore⟩ := wrapRowLast_first_break t hnl i hi
  have hpos : (if t[i]? = some ';' then i + 1 else i) = (if b = ';' then i + 1 else i) := by
    rw [hb1]
    simp
  rw [hpos] at hat hbefore
  have hij : i ≤ j := by
    by_contra hlt
    have := h4 j c hj (by omega) hc
    rw [hb] at this
    cases this
  refine ⟨by omega, List.getElem?_mem hat, ?_, i, b, h1, hij, hb1, hb2, h4, hat, hbefore⟩
  intro k hk
  apply hbefore
  split <;> omega

theorem first_break_position_witness :
    '\n' ∈ wrapRowLast ("a written or printed work of pages bound along one side, kept in a library and lent out to the readers of the town for a week".toList) :=
  (first_break_position
    ("book\t/buk/\ta written or printed work of pages bound along one side, kept in a library and lent out to the readers of the town for a week\n".toList)
    ("book\t/buk/\ta written or printed work of pages bound along one side, kept in a library and lent out to the readers of the town for a week".toList)
    ("a written or printed work of pages bound along one side, kept in a library and lent out to the readers of the town for a week".toList)
    (by decide) (by decide) 64 ' ' (by decide) (by decide) (by decide)).2.1

/-- C10: the wrapping loop terminates.  From the state in which it is entered, every
turn that is made lengthens the string by one character and still makes
`remainingLength`, the string length minus the index of the boundary just found,
strictly smaller; so after at most as many turns as the string has characters the
loop is left, with `remainingLength ≤ 64` or with no boundary found, and more turns
change nothing. -/
theorem wrapLoop_terminates (t : QString) (index : Nat)
    (h : indexOf t maxLength = some index) :
    (∀ n st', wrapStep (wrapLoop n (firstBreak t index)) = some st' →
      st'.rowLast.length = (wrapLoop n (firstBreak t index)).rowLast.length + 1 ∧
      (wrapLoop n (firstBreak t index)).lastLineBreak < st'.lastLineBreak ∧
      st'.remainingLength = (st'.rowLast.length : Int) - ((st'.lastLineBreak : Int) - 1) ∧
      st'.remainingLength < (wrapLoop n (firstBreak t index)).remainingLength) ∧
    ∃ n, n ≤ (firstBreak t index).rowLast.length ∧
      wrapStep (wrapLoop n (firstBreak t index)) = none ∧
      ((wrapLoop n (firstBreak t index)).remainingLength ≤ (maxLength : Int) ∨
        indexOf (wrapLoop n (firstBreak t index)).rowLast
          ((wrapLoop n (firstBreak t index)).lastLineBreak + 1) = none) ∧
      (∀ m, n ≤ m → wrapLoop m (firstBreak t index) = wrapLoop n (firstBreak t index)) ∧
      wrapRowLast t = (wrapLoop n (firstBreak t index)).rowLast := by
  have hinv := firstBreak_inv t index h
  constructor
  · intro n st' hs
    obtain ⟨hi', hlt, h2, _, _, hlen⟩ :=
      wrapStep_inv _ st' (wrapLoop_inv n _ hinv) hs
    exact ⟨hlen, by omega, hi'.2.2, hlt⟩
  · have hex := wrapLoop_exit (firstBreak t index).rowLast.length (firstBreak t index) hinv
      (firstBreak_fuel t index h)
    exact ⟨_, le_refl _, hex, wrapStep_none _ hex,
      fun m hm => wrapLoop_stable _ m _ hex hm, wrapRowLast_of_indexOf t index h⟩

theorem wrapLoop_terminates_witness :
    ∃ n, n ≤ (firstBreak ("to walk slowly and without any hurry along the bank of the river; to stroll about in the cool of the evening with friends; to wander".toList) 64).rowLast.length ∧
      wrapStep (wrapLoop n (firstBreak ("to walk slowly and without any hurry along the bank of the river; to stroll about in the cool of the evening with friends; to wander".toList) 64)) = none :=
  match (wrapLoop_terminates
    ("to walk slowly and without any hurry along the bank of the river; to stroll about in the cool of the evening with friends; to wander".toList)
    64 (by decide)).2 with
  | ⟨n, h1, h2, _⟩ => ⟨n, h1, h2⟩

/-- C9: a malformed line never aborts the load.  For every line, the empty line and
lines of one or two fields included, the split is not empty, `first()` and `last()`
are in range and the row stored has exactly two fields; so for every source text
the read loop ends with rows of two fields each, every read `lines[i][j]` with
`j < 2` is in range, and `modelFromFile` returns a model whose rows have two cells. -/
theorem load_never_aborts (text : QString) :
    (∀ line : QString, split '\t' line ≠ [] ∧
      (split '\t' line).head?.isSome = true ∧ (split '\t' line).getLast?.isSome = true ∧
      ∃ first last, processLine line = some [first, last]) ∧
    processLine [] = some [[], []] ∧
    processLine "cat".toList = some ["cat".toList, "cat".toList] ∧
    processLine "cat\tfeline".toList = some ["cat".toList, "feline".toList] ∧
    (∃ lines, readLoop (text.length + 1) text [] = some lines ∧
      (∀ row ∈ lines, row.length = 2) ∧
      (∀ i j, i < lines.length → j < columnCount → ∃ word,
        lines[i]?.bind (fun row => row[j]?) = some word) ∧
      ∃ table, fillModel lines = some table ∧ modelFromFile text = some table ∧
        table.length = lines.length ∧ ∀ row ∈ table, row.length = columnCount) := by
  refine ⟨?_, by decide, by decide, by decide, ?_⟩
  · intro line
    obtain ⟨init, last, hsp, hp⟩ := processLine_eq line
    refine ⟨split_ne_nil '\t' line, ?_, ?_, _, _, hp⟩
    · rw [hsp]
      cases init <;> simp
    · rw [hsp]
      simp
  · have hrows : ∀ row ∈ (linesRead text).map rowOf, row.length = 2 := by
      intro r hr
      obtain ⟨line, _, rfl⟩ := List.mem_map.mp hr
      exact (processLine_rowOf line).2
    refine ⟨(linesRead text).map rowOf, readLoop_eq _ text [] (by omega), hrows, ?_,
      (linesRead text).map rowOf, fillModel_eq _ hrows, modelFromFile_eq text, rfl, hrows⟩
    intro i j hi hj
    have hlen := hrows _ (List.getElem_mem hi)
    rw [List.getElem?_eq_getElem hi]
    simp only [Option.some_bind]
    have hj2 : j < ((linesRead text).map rowOf)[i].length := by
      rw [hlen]
      exact hj
    exact ⟨_, List.getElem?_eq_getElem hj2⟩

/-- C4: debounce coalescing.  After any calls `startUpdateViewTimer q1 .. qn` with no
expiry in between, `qn` not empty, no filter has been applied yet; the timer then
expires once, `updateView` applies the filter once, with `qn`, and the timer,
being single-shot, cannot expire again before a new call. -/
theorem debounce_coalesces (accepts : QString → List QString → Bool) (w : Window)
    (qs : List QString) (q : QString) (hq : q ≠ []) :
    (∀ n, (((qs ++ [q]).take n).foldl (fun w t => startUpdateViewTimer t w) w).applied =
        w.applied ∧
      (((qs ++ [q]).take n).foldl (fun w t => startUpdateViewTimer t w) w).visibleRows =
        w.visibleRows) ∧
    ∃ w', timeout accepts ((qs ++ [q]).foldl (fun w t => startUpdateViewTimer t w) w) = some w' ∧
      w'.applied = w.applied ++ [q] ∧
      w'.filterStartsWith = q ∧
      w'.visibleRows = w.sourceModel.filter (accepts q) ∧
      timeout accepts w' = none := by
  constructor
  · intro n
    obtain ⟨h1, _, h3, _⟩ := foldl_startUpdateViewTimer ((qs ++ [q]).take n) w
    exact ⟨h1, h3⟩
  · obtain ⟨h1, _, _, h4, _⟩ := foldl_startUpdateViewTimer qs w
    rw [List.foldl_append]
    simp only [List.foldl_cons, List.foldl_nil]
    obtain ⟨w', e1, e2, e3, e4, e5⟩ := timeout_startUpdateViewTimer accepts
      (qs.foldl (fun w t => startUpdateViewTimer t w) w) q hq
    rw [h1] at e2
    rw [h4] at e4
    exact ⟨w', e1, e2, e3, e4, e5⟩

theorem debounce_coalesces_witness :
    ∃ w', timeout (fun q row => q.isPrefixOf (row.headD []))
        (["c".toList, "ca".toList, "cat".toList].foldl (fun w t => startUpdateViewTimer t w)
          ⟨[["cat".toList, []], ["dog".toList, []]], [], [], [], false, [], 0⟩) = some w' ∧
      w'.applied = [] ++ ["cat".toList] ∧
      w'.filterStartsWith = "cat".toList ∧
      w'.visibleRows = List.filter ((fun q row => q.isPrefixOf (row.headD [])) "cat".toList)
        [["cat".toList, []], ["dog".toList, []]] ∧
      timeout (fun q row => q.isPrefixOf (row.headD [])) w' = none :=
  (debounce_coalesces (fun q row => q.isPrefixOf (row.headD []))
    ⟨[["cat".toList, []], ["dog".toList, []]], [], [], [], false, [], 0⟩
    ["c".toList, "ca".toList] "cat".toList (by decide)).2

/-- C5: the empty-query guard.  When the pending query is empty, `updateView` leaves
the whole state as it is, and an expiry of the timer changes nothing but the timer:
filter string, visible rows and applied filters stay what they were. -/
theorem empty_query_guard (accepts : QString → List QString → Bool) (w : Window)
    (h : w.currentSearchText = []) :
    updateView accepts w = w ∧
      ∀ w', timeout accepts w = some w' →
        w' = { w with timerActive := false } ∧
        w'.filterStartsWith = w.filterStartsWith ∧ w'.visibleRows = w.visibleRows ∧
        w'.applied = w.applied ∧ w'.sourceModel = w.sourceModel := by
  constructor
  · simp [updateView, h]
  · intro w' hw'
    unfold timeout at hw'
    split at hw'
    · simp only [Option.some.injEq] at hw'
      have e : updateView accepts { w with timerActive := false } =
          { w with timerActive := false } := by
        simp [updateView, h]
      rw [e] at hw'
      subst hw'
      exact ⟨rfl, rfl, rfl, rfl, rfl⟩
    · cases hw'

theorem empty_query_guard_witness :
    updateView (fun q row => q.isPrefixOf (row.headD []))
        ⟨[["cat".toList, []], ["dog".toList, []]], "do".toList, [["dog".toList, []]], [], true,
          ["do".toList], 1⟩ =
      ⟨[["cat".toList, []], ["dog".toList, []]], "do".toList, [["dog".toList, []]], [], true,
        ["do".toList], 1⟩ :=
  (empty_query_guard (fun q row => q.isPrefixOf (row.headD []))
    ⟨[["cat".toList, []], ["dog".toList, []]], "do".toList, [["dog".toList, []]], [], true,
      ["do".toList], 1⟩ rfl).1

/-- C6 fails on the code: with `category<TAB>kind` the only line of the word list and
the row `(cat, feline)` selected, no line has the headword `cat`, yet the list is
left as it is, because `cat` occurs inside `category`. -/
theorem onAddButtonClicked_substring :
    hasHeadword "category\tkind\n".toList "cat".toList = false ∧
      onAddButtonClicked (some ("cat".toList, "feline".toList))
        (some "category\tkind\n".toList) true = some "category\tkind\n".toList ∧
      onAddButtonClicked (some ("cat".toList, "feline".toList))
        (some "dog\tkind\n".toList) true = some "dog\tkind\ncat\tfeline\n".toList := by
  decide

/-- C7 fails on the code at a repeated break: in this translation the first break
replaces the space at index 64, but the next break, at the space at index 66, keeps
the space and puts the line break after it, as do the breaks that follow. -/
theorem repeated_break_keeps_space :
    wrapRowLast ("a written or printed work of pages bound along one side, kept in a library and lent out to the readers of the town for a week or for a month".toList) =
      "a written or printed work of pages bound along one side, kept in\na \nlibrary \nand \nlent out to the readers of the town for a week or for a month".toList := by
  decide

/-- C8 fails on the code: after the first break the next boundary is searched from
the character after the break on, not 64 characters further, so the lines of this
wrapped translation have 65, 1, 3, 7 and 56 characters. -/
theorem repeated_break_short_lines :
    wrapRowLast ("to walk slowly and without any hurry along the bank of the river; to stroll about in the cool of the evening with friends; to wander".toList) =
      "to walk slowly and without any hurry along the bank of the river;\n \nto \nstroll \nabout in the cool of the evening with friends; to wander".toList ∧
    (split '\n' (wrapRowLast ("to walk slowly and without any hurry along the bank of the river; to stroll about in the cool of the evening with friends; to wander".toList))).map
      List.length = [65, 1, 3, 7, 56] := by
  decide

end ThaiDictionary
